import Mathlib

/-!
Verification of the dynamic-value composition layer of
`crates/dbt-jinja/minijinja/src/macros.rs`: the `context!` macro
(ordered context maps and lazy merge views), the `args!` /
`__args_helper!` macros (positional/keyword argument marshalling),
the thread-local default environment and the `render!` macro.

The macro layer in `macros.rs` is embedded directly.  The value-level
collaborators it calls into (`MutableMap`, `MergeObject`,
`Kwargs::from_iter`, mapping lookup and key enumeration on `Value`)
live outside the excerpt and are modelled from the specification, as
marked on each definition.
-/

namespace Minijinja

/-- Modelled from the spec: the Dynamic Value data model (§3).  A
uniform immutable representation of template-visible data.  `prim`
stands for any scalar payload, `mapObj` for a frozen ordered context
map (insertion-ordered key/value entries), `kwargsObj` for a keyword
bag produced by `Kwargs::from_iter`, and `mergeObj` for the lazy
`MergeObject` merge view over an ordered list of sources. -/
inductive Value where
  | prim : String → Value
  | mapObj : List (String × Value) → Value
  | kwargsObj : List (String × Value) → Value
  | mergeObj : List Value → Value

/-- Modelled from the spec: mapping lookup on an insertion-ordered
entry list — the first entry whose key matches wins (entry lists built
by the map builder have unique keys, so first match is the match). -/
def entryLookup : List (String × Value) → String → Option Value
  | [], _ => none
  | (k', v) :: rest, k => if k' = k then some v else entryLookup rest k

mutual

/-- Modelled from the spec: mapping lookup on a Dynamic Value (§4.3).
Frozen maps and keyword bags look up their entry list; a merge view
scans its sources in order; scalar values are not mapping-like and
fail every lookup silently. -/
def Value.lookup : Value → String → Option Value
  | .prim _, _ => none
  | .mapObj es, k => entryLookup es k
  | .kwargsObj es, k => entryLookup es k
  | .mergeObj ss, k => mergeLookup ss k

/-- Modelled from the spec: `MergeObject` lookup — scan the sources in
order and return the value from the first source whose mapping-lookup
succeeds; return the not-found sentinel (`none`) when no source has
the key. -/
def mergeLookup : List Value → String → Option Value
  | [], _ => none
  | s :: rest, k =>
    match Value.lookup s k with
    | some v => some v
    | none => mergeLookup rest k

end

/-- First-occurrence deduplication with an accumulator of keys already
seen: keeps the first occurrence of each key not in `seen`, in order. -/
def dedupFirstAux (seen : List String) : List String → List String
  | [] => []
  | k :: rest =>
    if k ∈ seen then dedupFirstAux seen rest
    else k :: dedupFirstAux (k :: seen) rest

mutual

/-- Modelled from the spec: key enumeration on a Dynamic Value (§4.3).
Frozen maps and keyword bags enumerate their entry keys in stored
order; a merge view yields each distinct key once, ordered by first
appearance scanning its sources left to right; scalars have no keys. -/
def Value.ownKeys : Value → List String
  | .prim _ => []
  | .mapObj es => es.map Prod.fst
  | .kwargsObj es => es.map Prod.fst
  | .mergeObj ss => dedupFirstAux [] (flatKeys ss)

/-- Concatenation of the keys of a list of merge sources, in source
order and within each source in that source's own enumeration order. -/
def flatKeys : List Value → List String
  | [] => []
  | s :: rest => Value.ownKeys s ++ flatKeys rest

end

/-- Modelled from the spec: `MutableMap::insert` (§4.2 / §3) — insert
or update a key: re-insertion of an existing key updates the value in
place without changing its original position; a new key is appended. -/
def insertMM : List (String × Value) → String → Value → List (String × Value)
  | [], k, v => [(k, v)]
  | (k', v') :: rest, k, v =>
    if k' = k then (k', v) :: rest else (k', v') :: insertMM rest k v

/-- Folding a list of insert operations into an (initially given)
mutable map, as `context!` does via repeated `__context::add`. -/
def buildMapFrom (m : List (String × Value)) (ops : List (String × Value)) :
    List (String × Value) :=
  ops.foldl (fun acc p => insertMM acc p.1 p.2) m

/-- The map obtained by inserting `ops` in order into an empty map
(`__context::make` followed by `__context::add` for each pair). -/
def buildMap (ops : List (String × Value)) : List (String × Value) :=
  buildMapFrom [] ops

/-- `__context::build`: freeze a mutable map into an immutable Dynamic
Value (`Value::from_object`). -/
def freeze (m : List (String × Value)) : Value :=
  Value.mapObj m

/-- Modelled from the spec: `Kwargs::from_iter` — accumulate keyword
pairs into an ordered map with last-write-wins, first-position-retained
update semantics, wrapped as a keyword-bag value. -/
def kwargsFromIter (l : List (String × Value)) : Value :=
  Value.kwargsObj (buildMap l)

/-- The `context!` macro body for the inline-pairs-plus-merges arm
(`macros.rs` lines 136–156): build the inline pairs into a fresh map,
freeze it, collect the `..`-merged values in textual order; with no
merged values the frozen map itself is the result, otherwise the
frozen map is inserted at position 0 of the merge list and the whole
is wrapped as a `MergeObject`. -/
def contextMacro (pairs : List (String × Value)) (merges : List Value) : Value :=
  let ctx := freeze (buildMap pairs)
  if merges.isEmpty then ctx
  else Value.mergeObj (ctx :: merges)

/-- One item of an `args!` invocation: a bare positional value or a
`name => value` keyword pair. -/
inductive Arg where
  | pos : Value → Arg
  | kw : String → Value → Arg

/-- Whether an item is a keyword item (`$n:ident => $e:expr`). -/
def Arg.isKw : Arg → Bool
  | .pos _ => false
  | .kw _ _ => true

/-- The positional values of an item list, in order. -/
def posValues : List Arg → List Value
  | [] => []
  | .pos v :: rest => v :: posValues rest
  | .kw _ _ :: rest => posValues rest

/-- The keyword pairs of an item list, in order. -/
def kwPairs : List Arg → List (String × Value)
  | [] => []
  | .pos _ :: rest => kwPairs rest
  | .kw n v :: rest => (n, v) :: kwPairs rest

/-- The `peel` rules of `__args_helper!` (`macros.rs` lines 247–261):
positional items are appended to `args` and keyword items to `kwargs`.
After a keyword item the recursion continues with the flag set to
`true`, and the positional rules pattern-match only the literal flag
`false` — a positional item encountered with the flag `true` matches
no rule, which is a macro-expansion failure, embedded as `none`. -/
def peel (args : List Value) (kwargs : List (String × Value)) (hasKw : Bool) :
    List Arg → Option (List Value × List (String × Value))
  | [] => some (args, kwargs)
  | .kw n v :: rest => peel args (kwargs ++ [(n, v)]) true rest
  | .pos v :: rest =>
    if hasKw then none else peel (args ++ [v]) kwargs false rest

/-- The `args!` macro (`macros.rs` lines 209–243): zero items expand
to the empty slice; otherwise the `branch` rules select the `kwargs`
arm exactly when some item is a keyword item, in which case the
accumulated keyword pairs are wrapped via `Kwargs::from_iter` and
pushed as the final element after all positional values; the `args`
arm returns the positional values alone. -/
def argsMacro (items : List Arg) : Option (List Value) :=
  if items.isEmpty then some []
  else if items.any Arg.isKw then
    match peel [] [] false items with
    | some p => some (p.1 ++ [kwargsFromIter p.2])
    | none => none
  else
    match peel [] [] false items with
    | some p => some p.1
    | none => none

/-- The default render environment, identified by the value of the
per-thread construction counter at the moment it was created. -/
structure Environment where
  envId : Nat
deriving DecidableEq

/-- Modelled from the spec: the per-thread state behind Rust's
`thread_local!` storage in `__context::thread_local_env`
(`macros.rs` lines 51–56): an initially empty slot holding the shared
environment, plus a counter of how many constructions have run. -/
structure ThreadState where
  envSlot : Option Environment
  constructions : Nat

/-- The fresh per-thread state: nothing constructed yet. -/
def initThreadState : ThreadState :=
  { envSlot := none, constructions := 0 }

/-- `__context::thread_local_env`: return the environment in the
thread-local slot, constructing it (once) on first access; every call
returns a handle (`Rc::clone`) to the stored instance. -/
def threadLocalEnv (s : ThreadState) : Environment × ThreadState :=
  match s.envSlot with
  | some e => (e, s)
  | none =>
    let e : Environment := { envId := s.constructions }
    (e, { envSlot := some e, constructions := s.constructions + 1 })

/-- The per-thread state after `n` calls to `thread_local_env`,
starting from the fresh state. -/
def runCalls : Nat → ThreadState
  | 0 => initThreadState
  | n + 1 => (threadLocalEnv (runCalls n)).2

/-- The environment returned by the `(n+1)`-th call in a thread. -/
def callResult (n : Nat) : Environment :=
  (threadLocalEnv (runCalls n)).1

/-- The observable outcome of a `render!` invocation: the rendered
text, or a panic with its message. -/
inductive RenderOutcome where
  | text : String → RenderOutcome
  | panicked : String → RenderOutcome
deriving DecidableEq

/-- The `render!` macro body (`macros.rs` lines 307–323) applied to
the outcome of the underlying `render_str` call (an external
collaborator returning rendered text or a render error, §6): on
success `.expect` unwraps the text, on error it panics with the
message `"failed to render expression"`. -/
def renderMacro (r : Except String String) : RenderOutcome :=
  match r with
  | .ok s => .text s
  | .error _ => .panicked "failed to render expression"

/-- Index of the first occurrence of a key in a key list (length of
the list when absent). -/
def firstIdx : List String → String → Nat
  | [], _ => 0
  | k :: rest, a => if k = a then 0 else firstIdx rest a + 1

/-! ### Helper lemmas -/

theorem mem_dedupFirstAux {x : String} :
    ∀ {l seen : List String}, x ∈ dedupFirstAux seen l ↔ x ∈ l ∧ x ∉ seen := by
  intro l
  induction l with
  | nil => intro seen; simp [dedupFirstAux]
  | cons k rest ih =>
    intro seen
    simp only [dedupFirstAux]
    by_cases h : k ∈ seen
    · simp only [if_pos h, ih, List.mem_cons]
      constructor
      · rintro ⟨h1, h2⟩; exact ⟨Or.inr h1, h2⟩
      · rintro ⟨h1 | h1, h2⟩
        · exact absurd h (h1 ▸ h2)
        · exact ⟨h1, h2⟩
    · simp only [if_neg h, List.mem_cons, ih]
      constructor
      · rintro (h1 | ⟨h1, h2⟩)
        · exact ⟨Or.inl h1, fun hc => h (h1 ▸ hc)⟩
        · exact ⟨Or.inr h1, fun hx => h2 (Or.inr hx)⟩
      · rintro ⟨h1 | h1, h2⟩
        · exact Or.inl h1
        · by_cases hxk : x = k
          · exact Or.inl hxk
          · exact Or.inr ⟨h1, fun hc => hc.elim hxk h2⟩

theorem nodup_dedupFirstAux :
    ∀ (l seen : List String), (dedupFirstAux seen l).Nodup := by
  intro l
  induction l with
  | nil => intro seen; simp [dedupFirstAux]
  | cons k rest ih =>
    intro seen
    simp only [dedupFirstAux]
    by_cases h : k ∈ seen
    · simpa [if_pos h] using ih seen
    · rw [if_neg h]
      refine List.nodup_cons.mpr ⟨fun hmem => ?_, ih (k :: seen)⟩
      exact (mem_dedupFirstAux.mp hmem).2 (List.mem_cons_self k seen)

theorem dedupFirstAux_congr :
    ∀ (l s₁ s₂ : List String), (∀ x, x ∈ s₁ ↔ x ∈ s₂) →
      dedupFirstAux s₁ l = dedupFirstAux s₂ l := by
  intro l
  induction l with
  | nil => intro s₁ s₂ _; rfl
  | cons k rest ih =>
    intro s₁ s₂ hiff
    simp only [dedupFirstAux]
    by_cases h : k ∈ s₁
    · rw [if_pos h, if_pos ((hiff k).mp h), ih s₁ s₂ hiff]
    · rw [if_neg h, if_neg (fun hc => h ((hiff k).mpr hc)),
        ih (k :: s₁) (k :: s₂) (fun x => by simp only [List.mem_cons, hiff x])]

theorem firstIdx_cons_self {k : String} {rest : List String} :
    firstIdx (k :: rest) k = 0 := by
  simp [firstIdx]

theorem firstIdx_cons_ne {k a : String} {rest : List String} (h : a ≠ k) :
    firstIdx (k :: rest) a = firstIdx rest a + 1 := by
  simp only [firstIdx]
  rw [if_neg (fun hc => h hc.symm)]

theorem pairwise_firstIdx_dedupFirstAux :
    ∀ (l seen : List String),
      (dedupFirstAux seen l).Pairwise (fun a b => firstIdx l a < firstIdx l b) := by
  intro l
  induction l with
  | nil => intro seen; simp [dedupFirstAux]
  | cons k rest ih =>
    intro seen
    simp only [dedupFirstAux]
    by_cases h : k ∈ seen
    · rw [if_pos h]
      refine List.Pairwise.imp_of_mem ?_ (ih seen)
      intro a b ha hb hab
      have hak : a ≠ k := fun hc => (mem_dedupFirstAux.mp ha).2 (hc ▸ h)
      have hbk : b ≠ k := fun hc => (mem_dedupFirstAux.mp hb).2 (hc ▸ h)
      rw [firstIdx_cons_ne hak, firstIdx_cons_ne hbk]
      omega
    · rw [if_neg h]
      refine List.pairwise_cons.mpr ⟨?_, ?_⟩
      · intro b hb
        have hbk : b ≠ k := fun hc =>
          (mem_dedupFirstAux.mp hb).2 (hc ▸ List.mem_cons_self k seen)
        rw [firstIdx_cons_self, firstIdx_cons_ne hbk]
        omega
      · refine List.Pairwise.imp_of_mem ?_ (ih (k :: seen))
        intro a b ha hb hab
        have hak : a ≠ k := fun hc =>
          (mem_dedupFirstAux.mp ha).2 (hc ▸ List.mem_cons_self k seen)
        have hbk : b ≠ k := fun hc =>
          (mem_dedupFirstAux.mp hb).2 (hc ▸ List.mem_cons_self k seen)
        rw [firstIdx_cons_ne hak, firstIdx_cons_ne hbk]
        omega

theorem insertMM_keys (m : List (String × Value)) (k : String) (v : Value) :
    (insertMM m k v).map Prod.fst =
      if k ∈ m.map Prod.fst then m.map Prod.fst else m.map Prod.fst ++ [k] := by
  induction m with
  | nil => simp [insertMM]
  | cons p rest ih =>
    obtain ⟨k', v'⟩ := p
    simp only [insertMM, List.map_cons, List.mem_cons]
    by_cases h : k' = k
    · subst h
      simp
    · rw [if_neg h]
      simp only [List.map_cons, ih, List.cons_append]
      by_cases hm : k ∈ rest.map Prod.fst
      · rw [if_pos hm, if_pos (Or.inr hm)]
      · have hnot : ¬(k = k' ∨ k ∈ rest.map Prod.fst) := by
          rintro (hc | hc)
          · exact h hc.symm
          · exact hm hc
        rw [if_neg hm, if_neg hnot]

theorem entryLookup_insertMM_self (m : List (String × Value)) (k : String) (v : Value) :
    entryLookup (insertMM m k v) k = some v := by
  induction m with
  | nil => simp [insertMM, entryLookup]
  | cons p rest ih =>
    obtain ⟨k', v'⟩ := p
    simp only [insertMM]
    by_cases h : k' = k
    · simp [h, entryLookup]
    · simp [h, entryLookup, ih]

theorem entryLookup_insertMM_ne (m : List (String × Value)) (k k' : String) (v : Value)
    (hne : k' ≠ k) : entryLookup (insertMM m k v) k' = entryLookup m k' := by
  induction m with
  | nil =>
    simp only [insertMM, entryLookup]
    rw [if_neg (fun hc => hne hc.symm)]
  | cons p rest ih =>
    obtain ⟨k₀, v₀⟩ := p
    simp only [insertMM]
    by_cases h : k₀ = k
    · subst h
      have hne' : ¬(k₀ = k') := fun hc => hne hc.symm
      simp [entryLookup, hne']
    · simp only [if_neg h, entryLookup]
      by_cases h' : k₀ = k'
      · simp [h']
      · simp [h', ih]

theorem entryLookup_append (l₁ l₂ : List (String × Value)) (k : String) :
    entryLookup (l₁ ++ l₂) k =
      match entryLookup l₁ k with
      | some v => some v
      | none => entryLookup l₂ k := by
  induction l₁ with
  | nil => simp [entryLookup]
  | cons p rest ih =>
    obtain ⟨k', v⟩ := p
    by_cases h : k' = k
    · simp [entryLookup, h]
    · simp [entryLookup, h, ih]

theorem buildMapFrom_keys (ops : List (String × Value)) :
    ∀ m : List (String × Value),
      (buildMapFrom m ops).map Prod.fst =
        m.map Prod.fst ++ dedupFirstAux (m.map Prod.fst) (ops.map Prod.fst) := by
  induction ops with
  | nil => intro m; simp [buildMapFrom, dedupFirstAux]
  | cons p rest ih =>
    intro m
    obtain ⟨k, v⟩ := p
    have hstep : buildMapFrom m ((k, v) :: rest) = buildMapFrom (insertMM m k v) rest := rfl
    rw [hstep, ih, insertMM_keys]
    simp only [List.map_cons, dedupFirstAux]
    by_cases h : k ∈ m.map Prod.fst
    · simp [h]
    · rw [if_neg h, if_neg h, List.append_assoc]
      have hcongr :
          dedupFirstAux (m.map Prod.fst ++ [k]) (rest.map Prod.fst) =
            dedupFirstAux (k :: m.map Prod.fst) (rest.map Prod.fst) :=
        dedupFirstAux_congr _ _ _ (fun x => by
          simp only [List.mem_append, List.mem_cons, List.not_mem_nil, or_false]
          exact or_comm)
      rw [hcongr]
      rfl

theorem buildMapFrom_lookup (ops : List (String × Value)) :
    ∀ (m : List (String × Value)) (k : String),
      entryLookup (buildMapFrom m ops) k =
        match entryLookup ops.reverse k with
        | some v => some v
        | none => entryLookup m k := by
  induction ops with
  | nil => intro m k; simp [buildMapFrom, entryLookup]
  | cons p rest ih =>
    intro m k
    obtain ⟨k₀, v₀⟩ := p
    have hstep : buildMapFrom m ((k₀, v₀) :: rest) = buildMapFrom (insertMM m k₀ v₀) rest := rfl
    rw [hstep, ih, List.reverse_cons, entryLookup_append]
    cases hA : entryLookup rest.reverse k with
    | some v => simp
    | none =>
      simp only
      by_cases hk : k₀ = k
      · subst hk
        simp [entryLookup, entryLookup_insertMM_self]
      · simp [entryLookup, hk, entryLookup_insertMM_ne m k₀ k v₀ (fun hc => hk hc.symm)]

theorem peel_spec :
    ∀ (items : List Arg) (args : List Value) (kwargs : List (String × Value))
      (flag : Bool) (a : List Value) (kw : List (String × Value)),
      peel args kwargs flag items = some (a, kw) →
      a = args ++ posValues items ∧ kw = kwargs ++ kwPairs items := by
  intro items
  induction items with
  | nil =>
    intro args kwargs flag a kw h
    simp only [peel, Option.some.injEq, Prod.mk.injEq] at h
    simp [posValues, kwPairs, h.1.symm, h.2.symm]
  | cons item rest ih =>
    intro args kwargs flag a kw h
    cases item with
    | kw n v =>
      simp only [peel] at h
      obtain ⟨h1, h2⟩ := ih args (kwargs ++ [(n, v)]) true a kw h
      refine ⟨by simp [posValues, h1], ?_⟩
      simp [kwPairs, h2]
    | pos v =>
      simp only [peel] at h
      cases flag with
      | true => simp at h
      | false =>
        simp only [if_neg Bool.false_ne_true] at h
        obtain ⟨h1, h2⟩ := ih (args ++ [v]) kwargs false a kw h
        refine ⟨?_, by simp [kwPairs, h2]⟩
        simp [posValues, h1]

theorem any_isKw_eq :
    ∀ items : List Arg, items.any Arg.isKw = !(kwPairs items).isEmpty := by
  intro items
  induction items with
  | nil => simp [kwPairs]
  | cons item rest ih =>
    cases item with
    | pos v => simp [List.any_cons, Arg.isKw, kwPairs, ih]
    | kw n v => simp [List.any_cons, Arg.isKw, kwPairs]

/-- Shared characterization of a successful `args!` expansion: the
output is the positional values in order, followed by the single
keyword bag exactly when some keyword item occurred. -/
theorem argsMacro_some_eq (items : List Arg) (out : List Value)
    (h : argsMacro items = some out) :
    out = posValues items ++
      (if items.any Arg.isKw then [kwargsFromIter (kwPairs items)] else []) := by
  by_cases hemp : items.isEmpty
  · rw [List.isEmpty_iff] at hemp
    subst hemp
    simp only [argsMacro, List.isEmpty_nil, if_pos trivial, Option.some.injEq] at h
    simp [posValues, kwPairs, List.any_nil, h.symm]
  · by_cases hkw : items.any Arg.isKw
    · simp only [argsMacro, if_neg hemp, if_pos hkw] at h
      cases hpeel : peel [] [] false items with
      | none => rw [hpeel] at h; simp at h
      | some p =>
        rw [hpeel] at h
        simp only [Option.some.injEq] at h
        obtain ⟨h1, h2⟩ := peel_spec items [] [] false p.1 p.2 hpeel
        simp only [List.nil_append] at h1 h2
        rw [if_pos hkw, ← h, h1, h2]
    · simp only [argsMacro, if_neg hemp, if_neg hkw] at h
      cases hpeel : peel [] [] false items with
      | none => rw [hpeel] at h; simp at h
      | some p =>
        rw [hpeel] at h
        simp only [Option.some.injEq] at h
        obtain ⟨h1, h2⟩ := peel_spec items [] [] false p.1 p.2 hpeel
        simp only [List.nil_append] at h1 h2
        rw [if_neg hkw, ← h, h1, List.append_nil]

theorem mergeLookup_eq_none :
    ∀ (ss : List Value) (k : String), (∀ s ∈ ss, s.lookup k = none) →
      mergeLookup ss k = none := by
  intro ss
  induction ss with
  | nil => intro k _; rfl
  | cons s rest ih =>
    intro k h
    rw [mergeLookup, h s (List.mem_cons_self s rest)]
    exact ih k (fun s' hs' => h s' (List.mem_cons_of_mem s hs'))

theorem mergeLookup_least :
    ∀ (ss : List Value) (k : String) (i : Nat),
      i < ss.length →
      ((ss.getD i (Value.prim "")).lookup k).isSome →
      (∀ j, j < i → (ss.getD j (Value.prim "")).lookup k = none) →
      mergeLookup ss k = (ss.getD i (Value.prim "")).lookup k := by
  intro ss
  induction ss with
  | nil => intro k i hi _ _; exact absurd hi (Nat.not_lt_zero i)
  | cons s rest ih =>
    intro k i hi hsome hnone
    cases i with
    | zero =>
      simp only [List.getD_cons_zero] at hsome ⊢
      rw [mergeLookup]
      cases hv : s.lookup k with
      | some v => simp
      | none => rw [hv] at hsome; simp at hsome
    | succ i =>
      have h0 : s.lookup k = none := by
        have := hnone 0 (Nat.succ_pos i)
        simpa using this
      rw [mergeLookup, h0]
      simp only [List.getD_cons_succ] at hsome ⊢
      exact ih k i (Nat.lt_of_succ_lt_succ hi) hsome
        (fun j hj => by
          have := hnone (j + 1) (Nat.succ_lt_succ hj)
          simpa using this)

theorem runCalls_succ_eq (n : Nat) :
    runCalls (n + 1) = { envSlot := some { envId := 0 }, constructions := 1 } := by
  induction n with
  | zero => rfl
  | succ n ih =>
    have hstep : runCalls (n + 1 + 1) = (threadLocalEnv (runCalls (n + 1))).2 := rfl
    rw [hstep, ih]
    rfl

/-! ### Claim theorems -/

/-- C1: for every list of Dynamic Value sources combined into a merge
view, `get(k)` returns the value from the lowest-indexed source whose
mapping-lookup for `k` succeeds (every earlier source missing `k`),
and returns the not-found sentinel `none` when no source contains
`k`. -/
theorem merge_get_first_source_wins (ss : List Value) (k : String) :
    ((∀ s ∈ ss, s.lookup k = none) → (Value.mergeObj ss).lookup k = none) ∧
    (∀ i : Nat, i < ss.length →
      ((ss.getD i (Value.prim "")).lookup k).isSome →
      (∀ j, j < i → (ss.getD j (Value.prim "")).lookup k = none) →
      (Value.mergeObj ss).lookup k = (ss.getD i (Value.prim "")).lookup k) := by
  constructor
  · intro h
    simp only [Value.lookup]
    exact mergeLookup_eq_none ss k h
  · intro i hi hsome hnone
    simp only [Value.lookup]
    exact mergeLookup_least ss k i hi hsome hnone

theorem merge_get_first_source_wins_witness :
    (Value.mergeObj [Value.mapObj [("a", Value.prim "A")],
        Value.mapObj [("a", Value.prim "Z"), ("b", Value.prim "B")]]).lookup "b"
      = some (Value.prim "B") ∧
    (Value.mergeObj [Value.mapObj [("a", Value.prim "A")]]).lookup "c" = none := by
  constructor
  · have h := (merge_get_first_source_wins
        [Value.mapObj [("a", Value.prim "A")],
         Value.mapObj [("a", Value.prim "Z"), ("b", Value.prim "B")]] "b").2 1
        (by decide) (by rfl)
        (fun j hj => by
          cases j with
          | zero => rfl
          | succ j => exact absurd (Nat.lt_of_succ_lt_succ hj) (Nat.not_lt_zero j))
    exact h.trans rfl
  · exact (merge_get_first_source_wins [Value.mapObj [("a", Value.prim "A")]] "c").1
      (by
        intro s hs
        rw [List.mem_singleton] at hs
        subst hs
        rfl)

/-- C2: for every item list that `args!` accepts, the output sequence
is the positional values in their original relative order, followed by
exactly one trailing keyword-bag value if and only if at least one
keyword item was supplied. -/
theorem args_output_shape (items : List Arg) (out : List Value)
    (h : argsMacro items = some out) :
    out = posValues items ++
      (if items.any Arg.isKw then [kwargsFromIter (kwPairs items)] else []) :=
  argsMacro_some_eq items out h

theorem args_output_shape_witness :
    ([Value.prim "1", Value.prim "2", Value.kwargsObj [("foo", Value.prim "bar")]] : List Value)
      = posValues [Arg.pos (Value.prim "1"), Arg.pos (Value.prim "2"),
          Arg.kw "foo" (Value.prim "bar")] ++
        (if List.any [Arg.pos (Value.prim "1"), Arg.pos (Value.prim "2"),
            Arg.kw "foo" (Value.prim "bar")] Arg.isKw then
          [kwargsFromIter (kwPairs [Arg.pos (Value.prim "1"), Arg.pos (Value.prim "2"),
            Arg.kw "foo" (Value.prim "bar")])]
        else []) :=
  args_output_shape
    [Arg.pos (Value.prim "1"), Arg.pos (Value.prim "2"), Arg.kw "foo" (Value.prim "bar")]
    [Value.prim "1", Value.prim "2", Value.kwargsObj [("foo", Value.prim "bar")]] rfl

/-- C3 counterexample: two item lists with the same positional values
in order and the same keyword items in order but interleaved
differently do not always produce the same output — placing a keyword
item before a positional item makes macro expansion fail (no `peel`
rule matches a positional once the keyword flag is set), while the
positional-first order succeeds. -/
theorem args_interleaving_counterexample :
    posValues [Arg.kw "a" (Value.prim "1"), Arg.pos (Value.prim "2")]
      = posValues [Arg.pos (Value.prim "2"), Arg.kw "a" (Value.prim "1")] ∧
    kwPairs [Arg.kw "a" (Value.prim "1"), Arg.pos (Value.prim "2")]
      = kwPairs [Arg.pos (Value.prim "2"), Arg.kw "a" (Value.prim "1")] ∧
    argsMacro [Arg.kw "a" (Value.prim "1"), Arg.pos (Value.prim "2")] = none ∧
    argsMacro [Arg.pos (Value.prim "2"), Arg.kw "a" (Value.prim "1")]
      = some [Value.prim "2", Value.kwargsObj [("a", Value.prim "1")]] :=
  ⟨rfl, rfl, rfl, rfl⟩

/-- C3 amended: an item list in which a positional item follows a
keyword item is rejected by `args!` (macro expansion fails); for every
pair of item lists that the builder accepts, having the same
positional values in order and the same keyword items in order forces
the same output sequence. -/
theorem args_interleaving_requires_positional_first (l₁ l₂ : List Arg)
    (o₁ o₂ : List Value) (h₁ : argsMacro l₁ = some o₁) (h₂ : argsMacro l₂ = some o₂)
    (hp : posValues l₁ = posValues l₂) (hk : kwPairs l₁ = kwPairs l₂) :
    o₁ = o₂ := by
  rw [argsMacro_some_eq l₁ o₁ h₁, argsMacro_some_eq l₂ o₂ h₂,
    any_isKw_eq l₁, any_isKw_eq l₂, hp, hk]

theorem args_interleaving_requires_positional_first_witness :
    ([Value.prim "2", Value.kwargsObj [("a", Value.prim "1")]] : List Value)
      = [Value.prim "2", Value.kwargsObj [("a", Value.prim "1")]] :=
  args_interleaving_requires_positional_first
    [Arg.pos (Value.prim "2"), Arg.kw "a" (Value.prim "1")]
    [Arg.pos (Value.prim "2"), Arg.kw "a" (Value.prim "1")]
    [Value.prim "2", Value.kwargsObj [("a", Value.prim "1")]]
    [Value.prim "2", Value.kwargsObj [("a", Value.prim "1")]]
    rfl rfl rfl rfl

/-- C4: a `context!` invocation with inline pairs and one or more
`..`-merged values produces a merge view whose source list is the
frozen inline map first, followed by the merged values in textual
order; consequently lookup prefers the inline map and otherwise falls
through to the merged sources scanned left to right. -/
theorem context_inline_then_merges (pairs : List (String × Value)) (merges : List Value)
    (h : merges ≠ []) :
    contextMacro pairs merges = Value.mergeObj (freeze (buildMap pairs) :: merges) ∧
    ∀ k : String, (contextMacro pairs merges).lookup k =
      match entryLookup (buildMap pairs) k with
      | some v => some v
      | none => mergeLookup merges k := by
  cases merges with
  | nil => exact absurd rfl h
  | cons m ms =>
    refine ⟨rfl, ?_⟩
    intro k
    have hstruct : contextMacro pairs (m :: ms)
        = Value.mergeObj (freeze (buildMap pairs) :: m :: ms) := rfl
    rw [hstruct]
    simp only [Value.lookup]
    rw [mergeLookup]
    rfl

theorem context_inline_then_merges_witness :
    contextMacro [("a", Value.prim "A")]
        [Value.mapObj [("a", Value.prim "Z"), ("b", Value.prim "B")]]
      = Value.mergeObj [freeze (buildMap [("a", Value.prim "A")]),
          Value.mapObj [("a", Value.prim "Z"), ("b", Value.prim "B")]] ∧
    (contextMacro [("a", Value.prim "A")]
        [Value.mapObj [("a", Value.prim "Z"), ("b", Value.prim "B")]]).lookup "a"
      = some (Value.prim "A") ∧
    (contextMacro [("a", Value.prim "A")]
        [Value.mapObj [("a", Value.prim "Z"), ("b", Value.prim "B")]]).lookup "b"
      = some (Value.prim "B") := by
  have h := context_inline_then_merges [("a", Value.prim "A")]
      [Value.mapObj [("a", Value.prim "Z"), ("b", Value.prim "B")]]
      (List.cons_ne_nil _ _)
  refine ⟨h.1, ?_, ?_⟩
  · rw [h.2 "a"]; rfl
  · rw [h.2 "b"]; rfl

/-- C5: enumerating a frozen ordered context map yields its keys in
first-insertion order (first occurrences of the inserted keys, in
order), and inserting an already-present key updates its value while
leaving the key list — hence the key's position — unchanged; the
spec's `name`/`location` scenario freezes to exactly those entries in
insertion order. -/
theorem ordered_map_first_insertion_order (ops m : List (String × Value))
    (k : String) (v : Value) :
    (freeze (buildMap ops)).ownKeys = dedupFirstAux [] (ops.map Prod.fst) ∧
    entryLookup (insertMM m k v) k = some v ∧
    (insertMM m k v).map Prod.fst =
      (if k ∈ m.map Prod.fst then m.map Prod.fst else m.map Prod.fst ++ [k]) ∧
    freeze (buildMap [("name", Value.prim "Peter"), ("location", Value.prim "World")])
      = Value.mapObj [("name", Value.prim "Peter"), ("location", Value.prim "World")] := by
  refine ⟨?_, entryLookup_insertMM_self m k v, insertMM_keys m k v, rfl⟩
  simp only [freeze, Value.ownKeys]
  have h := buildMapFrom_keys ops []
  simpa [buildMap] using h

/-- C6: the keyword bag follows last-write-wins with
first-seen-position-retained semantics — the bag built from
`[(a,1),(b,2),(a,3)]` holds `a ↦ 3` at the first position and
`b ↦ 2` after it, and in general bag lookup returns the last value
written for a name while the name order is the order of first
occurrence. -/
theorem kwargs_last_write_wins (v1 v2 v3 : Value) (l : List (String × Value)) (k : String) :
    kwargsFromIter [("a", v1), ("b", v2), ("a", v3)]
      = Value.kwargsObj [("a", v3), ("b", v2)] ∧
    entryLookup (buildMap l) k = entryLookup l.reverse k ∧
    (buildMap l).map Prod.fst = dedupFirstAux [] (l.map Prod.fst) := by
  refine ⟨rfl, ?_, ?_⟩
  · have h := buildMapFrom_lookup l [] k
    simp only [buildMap] at h ⊢
    rw [h]
    cases entryLookup l.reverse k <;> simp [entryLookup]
  · have h := buildMapFrom_keys l []
    simpa [buildMap] using h

/-- C7: the key enumeration of a merge view yields each distinct key
exactly once, ordered by first appearance when scanning the sources
left to right (and within a source in that source's own enumeration
order, as recorded by `flatKeys`). -/
theorem merge_keys_first_appearance (ss : List Value) :
    (Value.mergeObj ss).ownKeys.Nodup ∧
    (∀ k, k ∈ (Value.mergeObj ss).ownKeys ↔ k ∈ flatKeys ss) ∧
    (Value.mergeObj ss).ownKeys.Pairwise
      (fun a b => firstIdx (flatKeys ss) a < firstIdx (flatKeys ss) b) := by
  have heq : (Value.mergeObj ss).ownKeys = dedupFirstAux [] (flatKeys ss) := by
    simp only [Value.ownKeys]
  refine ⟨?_, ?_, ?_⟩
  · rw [heq]; exact nodup_dedupFirstAux _ _
  · intro k
    rw [heq, mem_dedupFirstAux]
    simp
  · rw [heq]; exact pairwise_firstIdx_dedupFirstAux _ _

/-- C8: invoking `args!` with zero items returns the empty argument
sequence — no positional values, no keyword bag — and does not
fail. -/
theorem args_empty_is_empty : argsMacro [] = some [] := rfl

/-- C9: within one thread, every call to `thread_local_env` returns
the same environment instance as the first call, the environment is
constructed exactly once however many calls are made, and a call that
finds the slot filled returns the stored instance without changing
the state. -/
theorem thread_local_env_shared (n : Nat) (s : ThreadState) (e : Environment) :
    callResult n = callResult 0 ∧
    (runCalls (n + 1)).constructions = 1 ∧
    (s.envSlot = some e → threadLocalEnv s = (e, s)) := by
  refine ⟨?_, ?_, ?_⟩
  · cases n with
    | zero => rfl
    | succ n =>
      have hc : callResult (n + 1) = (threadLocalEnv (runCalls (n + 1))).1 := rfl
      rw [hc, runCalls_succ_eq n]
      rfl
  · rw [runCalls_succ_eq n]
  · intro hs
    simp [threadLocalEnv, hs]

theorem thread_local_env_shared_witness :
    callResult 5 = callResult 0 ∧
    (runCalls 6).constructions = 1 ∧
    threadLocalEnv { envSlot := some { envId := 0 }, constructions := 1 }
      = ({ envId := 0 }, { envSlot := some { envId := 0 }, constructions := 1 }) := by
  have h := thread_local_env_shared 5
      { envSlot := some { envId := 0 }, constructions := 1 } { envId := 0 }
  exact ⟨h.1, h.2.1, h.2.2 rfl⟩

/-- C10: whenever the underlying `render_str` call fails, the
`render!` macro panics with the message `failed to render expression`
instead of returning the error, and it returns the rendered text
exactly when `render_str` succeeds. -/
theorem render_macro_error_panics (r : Except String String) (s e : String) :
    (renderMacro r = .text s ↔ r = .ok s) ∧
    (r = .error e → renderMacro r = .panicked "failed to render expression") := by
  constructor
  · cases r with
    | ok t => simp [renderMacro]
    | error err => simp [renderMacro]
  · intro hr
    subst hr
    rfl

theorem render_macro_error_panics_witness :
    renderMacro (Except.error "boom") = RenderOutcome.panicked "failed to render expression" ∧
    renderMacro (Except.ok "hi") = RenderOutcome.text "hi" :=
  ⟨(render_macro_error_panics (Except.error "boom") "hi" "boom").2 rfl,
   (render_macro_error_panics (Except.ok "hi") "hi" "boom").1.mpr rfl⟩

end Minijinja
